import Mathlib

/-!
# A verification development for the sqlite-vec vector search engine

This file gives a shallow embedding of the data model and the operations of
the sqlite-vec core — vector codecs, distance kernels, the chunked vector
store with its mutation engine, and the KNN query executor — and proves the
specified properties about them.

The repository ships only the public header `sqlite-vec.h`; the C core itself
is not part of the source tree available here.  The version constants below
are transcribed from the header.  Every other definition is modelled from the
specification (each doc comment says so explicitly) and kept executable, so
that all properties can be checked on concrete inputs.

Numeric convention: vector component values are modelled as exact integers
(`ℤ`), the common exact domain of the three encodings; distances are exact
rationals (`ℚ`).  IEEE floating point bit layouts are outside the shallow
embedding; the codecs for the float and quantized-integer encodings work on
exact rational component values.
-/

namespace SqliteVec

/-! ## Version constants, transcribed from `src/sqlite-vec.h` -/

/-- Transcribed from `src/sqlite-vec.h`: `#define SQLITE_VEC_VERSION "v0.3.1"`. -/
def SQLITE_VEC_VERSION : String := "v0.3.1"

/-- Transcribed from `src/sqlite-vec.h`: `#define SQLITE_VEC_VERSION_MAJOR 0`. -/
def SQLITE_VEC_VERSION_MAJOR : Nat := 0

/-- Transcribed from `src/sqlite-vec.h`: `#define SQLITE_VEC_VERSION_MINOR 3`. -/
def SQLITE_VEC_VERSION_MINOR : Nat := 3

/-- Transcribed from `src/sqlite-vec.h`: `#define SQLITE_VEC_VERSION_PATCH 1`. -/
def SQLITE_VEC_VERSION_PATCH : Nat := 1

/-! ## Vector type system: encodings and the encode/decode pairs (spec §4.1)

Modelled from the spec: the Vector Type System exposes a pure encode/decode
pair per element encoding (32-bit float, 8-bit quantized integer, 1-bit packed
binary) and validates dimension and component ranges on every write. -/

/-- Modelled from the spec: the three supported element encodings. -/
inductive Encoding
  | float32
  | int8
  | bit
deriving DecidableEq

/-- Modelled from the spec: the float32 codec stores every component value
exactly (the spec requires an exact encode/decode round trip for this
encoding); at the level of exact component values the payload is the
component list itself. -/
def encodeF32 (v : List ℚ) : List ℚ := v

/-- Modelled from the spec: decoder of the float32 payload. -/
def decodeF32 (p : List ℚ) : List ℚ := p

/-- Modelled from the spec: write-time validation of the 8-bit quantized
integer encoding — every component lies in the representable range. -/
def validI8 (v : List ℚ) : Prop := ∀ x ∈ v, -128 ≤ x ∧ x ≤ 127

instance validI8.dec (v : List ℚ) : Decidable (validI8 v) :=
  List.decidableBAll _ v

/-- Modelled from the spec: quantizer of one component to the integer grid
(rounding to the nearest representable integer). -/
def quantI8 (x : ℚ) : ℤ := round x

/-- Modelled from the spec: the quantized-integer encoder. -/
def encodeI8 (v : List ℚ) : List ℤ := v.map quantI8

/-- Modelled from the spec: the quantized-integer decoder. -/
def decodeI8 (p : List ℤ) : List ℚ := p.map fun z => (z : ℚ)

/-- Modelled from the spec: value of a packed group of bits, least significant
bit first. -/
def byteVal : List Bool → ℕ
  | [] => 0
  | b :: bs => (cond b 1 0) + 2 * byteVal bs

/-- Modelled from the spec: the `k` low bits of a byte value, least
significant bit first. -/
def bitsAux : ℕ → ℕ → List Bool
  | 0, _ => []
  | k + 1, n => decide (n % 2 = 1) :: bitsAux k (n / 2)

/-- Modelled from the spec: the binary encoder — pack the bit vector into
`ceil(dimension / 8)` bytes of eight bits each. -/
def packBits : List Bool → List ℕ
  | [] => []
  | b :: bs => byteVal ((b :: bs).take 8) :: packBits ((b :: bs).drop 8)
termination_by l => l.length
decreasing_by simp; omega

/-- Modelled from the spec: the binary decoder — unpack all bytes and keep the
first `d` bits. -/
def unpackBits (d : ℕ) (bytes : List ℕ) : List Bool :=
  (bytes.flatMap (bitsAux 8)).take d

/-! ## Distance kernel library (spec §4.2)

Modelled from the spec: one kernel per metric.  L2 is squared (no square
root), L1 sums absolute differences, Hamming counts differing bits, and
cosine is `1 − normalized dot product` with a fixed sentinel maximum for
zero-magnitude operands.  The spec (§9) leaves the exact numeric policy of
the cosine kernel open; the model represents the normalized dot product by
the order-isomorphic exact rational `dot·|dot| / (|a|²·|b|²)` (the signed
square of the true normalized dot product), which preserves the induced
ranking, the `[−1, 1]` range and the zero-magnitude sentinel case. -/

/-- Modelled from the spec: the four distance metrics. -/
inductive Metric
  | l2sq
  | cosine
  | l1
  | hamming
deriving DecidableEq

/-- Dot product of two component vectors (truncating to the common length). -/
def dotp (a b : List ℤ) : ℤ := (List.zipWith (· * ·) a b).sum

/-- Squared magnitude of a component vector. -/
def magSq (a : List ℤ) : ℤ := dotp a a

/-- Modelled from the spec: the fixed sentinel maximum returned by the cosine
kernel when either operand has zero magnitude ("maximally dissimilar"). -/
def cosineSentinel : ℚ := 2

/-- Modelled from the spec: the (signed-square surrogate of the) normalized
dot product of two vectors, an exact rational in `[−1, 1]`. -/
def normSq (a b : List ℤ) : ℚ :=
  ((dotp a b * |dotp a b| : ℤ) : ℚ) / ((magSq a : ℚ) * (magSq b : ℚ))

/-- Modelled from the spec: the cosine distance kernel — `1 − normalized dot
product`, with the fixed sentinel maximum when either vector has zero
magnitude (never an undefined value). -/
def cosineDist (a b : List ℤ) : ℚ :=
  if magSq a = 0 ∨ magSq b = 0 then cosineSentinel else 1 - normSq a b

/-- Modelled from the spec: squared-Euclidean distance — the sum of squared
component differences, never taking a square root. -/
def l2sqDist (a b : List ℤ) : ℤ := (List.zipWith (fun x y => (x - y) ^ 2) a b).sum

/-- Modelled from the spec: L1 distance — the sum of absolute component
differences. -/
def l1Dist (a b : List ℤ) : ℤ := (List.zipWith (fun x y => |x - y|) a b).sum

/-- Modelled from the spec: Hamming distance — the number of differing
components (popcount of XOR on the packed-bit encoding). -/
def hammingDist (a b : List ℤ) : ℤ :=
  (List.zipWith (fun x y => if x = y then (0 : ℤ) else 1) a b).sum

/-- Modelled from the spec: the kernel table, one distance function per
metric. -/
def metricDist : Metric → List ℤ → List ℤ → ℚ
  | .l2sq, a, b => ((l2sqDist a b : ℤ) : ℚ)
  | .cosine, a, b => cosineDist a b
  | .l1, a, b => ((l1Dist a b : ℤ) : ℚ)
  | .hamming, a, b => ((hammingDist a b : ℤ) : ℚ)

/-! ## Chunked vector store and mutation engine (spec §3, §4.3)

Modelled from the spec: a collection owns a sequence of fixed-capacity
chunks; each chunk is a list of slots carrying a liveness bit, the rowid, the
vector payload and the partition-key value; a slot is valid iff its liveness
bit is set.  The rowid → (chunk, slot) index is the association derived from
the live slots (the spec allows the index to be rebuilt or maintained
incrementally; the model keeps it derived, so the bijection claims are about
the liveness structure itself). -/

/-- Modelled from the spec: one record slot of a chunk. -/
structure Slot where
  live : Bool
  rowid : ℤ
  vec : List ℤ
  pkey : ℤ
deriving DecidableEq

/-- Modelled from the spec: a fixed-capacity block of record slots. -/
structure Chunk where
  slots : List Slot
deriving DecidableEq

/-- Modelled from the spec: one collection — element encoding, fixed
dimension, chunk capacity and the owned chunk sequence. -/
structure Store where
  dim : ℕ
  enc : Encoding
  cap : ℕ
  chunks : List Chunk
deriving DecidableEq

/-- Modelled from the spec: the error taxonomy (spec §7). -/
inductive VecError
  | DimensionMismatch
  | UnsupportedEncoding
  | InvalidVectorEncoding
  | QuantizationRangeError
  | DuplicateRowid
  | NotFound
  | InvalidQuery
  | StorageCorruption
  | OutOfMemory
deriving DecidableEq

/-- A freshly allocated, invalid slot. -/
def deadSlot : Slot := ⟨false, 0, [], 0⟩

/-- Modelled from the spec: an empty collection with no chunks. -/
def mkStore (dim : ℕ) (enc : Encoding) (cap : ℕ) : Store := ⟨dim, enc, cap, []⟩

/-- The live slots of a store, in storage order. -/
def liveSlots (st : Store) : List Slot :=
  st.chunks.flatMap fun ch => ch.slots.filter fun sl => sl.live

/-- The rowids of the live slots, in storage order. -/
def liveRowids (st : Store) : List ℤ := (liveSlots st).map Slot.rowid

/-- The rowid index entries `(rowid, chunk, slot)` contributed by one chunk,
where `c` is the chunk number and `s` the number of the first slot. -/
def chunkEntries (c : ℕ) : List Slot → ℕ → List (ℤ × ℕ × ℕ)
  | [], _ => []
  | sl :: rest, s =>
    (if sl.live then [(sl.rowid, c, s)] else []) ++ chunkEntries c rest (s + 1)

/-- The rowid index entries of a chunk sequence whose first chunk is numbered
`c`. -/
def storeEntries : List Chunk → ℕ → List (ℤ × ℕ × ℕ)
  | [], _ => []
  | ch :: rest, c => chunkEntries c ch.slots 0 ++ storeEntries rest (c + 1)

/-- Modelled from the spec: the rowid → (chunk, slot) index — the association
between live rowids and the positions of the live slots. -/
def liveEntries (st : Store) : List (ℤ × ℕ × ℕ) := storeEntries st.chunks 0

/-- Whether a chunk still has a free (invalid) slot. -/
def hasFreeSlot (ch : Chunk) : Bool := ch.slots.any fun sl => !sl.live

/-- Write a record into the first free slot of a slot list. -/
def fillFree : List Slot → Slot → List Slot
  | [], _ => []
  | s :: rest, sl => if s.live then s :: fillFree rest sl else sl :: rest

/-- Modelled from the spec: place a record into the last chunk that has a free
slot; `none` when no chunk has one. -/
def placeLast : List Chunk → Slot → Option (List Chunk)
  | [], _ => none
  | ch :: rest, sl =>
    match placeLast rest sl with
    | some rest' => some (ch :: rest')
    | none => if hasFreeSlot ch then some (⟨fillFree ch.slots sl⟩ :: rest) else none

/-- Modelled from the spec: a fresh chunk holding one record in slot 0, the
remaining `cap − 1` slots invalid. -/
def freshChunk (cap : ℕ) (sl : Slot) : Chunk := ⟨sl :: List.replicate (cap - 1) deadSlot⟩

/-- Modelled from the spec: the storage effect of an insert — write into the
last chunk with a free slot, else append a fresh chunk. -/
def insertRaw (st : Store) (sl : Slot) : Store :=
  match placeLast st.chunks sl with
  | some cs => { st with chunks := cs }
  | none => { st with chunks := st.chunks ++ [freshChunk st.cap sl] }

/-- Modelled from the spec: `insert(rowid, vector, partition_value)` — fails
with `DuplicateRowid` if the rowid is already indexed, otherwise writes the
record, marks the slot valid and (derived) indexes it. -/
def insert (st : Store) (r : ℤ) (v : List ℤ) (pk : ℤ) : Except VecError Store :=
  if r ∈ liveRowids st then .error .DuplicateRowid
  else .ok (insertRaw st ⟨true, r, v, pk⟩)

/-- Clear the liveness bit of the slot holding rowid `r` in one chunk; the
payload bytes are not erased (lazy reclamation). -/
def killIn (r : ℤ) (ch : Chunk) : Chunk :=
  ⟨ch.slots.map fun sl => if sl.live ∧ sl.rowid = r then { sl with live := false } else sl⟩

/-- Modelled from the spec: `delete(rowid)` — fails with `NotFound` if the
rowid is absent; otherwise clears the liveness bit and (derived) removes the
index entry, leaving payload bytes in place. -/
def delete (st : Store) (r : ℤ) : Except VecError Store :=
  if r ∈ liveRowids st then .ok { st with chunks := st.chunks.map (killIn r) }
  else .error .NotFound

/-- Modelled from the spec: `update(rowid, …)` is delete followed by insert —
never an in-place byte patch. -/
def update (st : Store) (r : ℤ) (v : List ℤ) (pk : ℤ) : Except VecError Store :=
  match delete st r with
  | .error e => .error e
  | .ok st1 => insert st1 r v pk

/-- Split a slot list into chunks of `cap` slots (at least one slot per chunk,
so a degenerate capacity still terminates). -/
def chunksOf (cap : ℕ) : List Slot → List Chunk
  | [] => []
  | s :: rest =>
    if cap ≤ 1 then ⟨[s]⟩ :: chunksOf cap rest
    else ⟨(s :: rest).take cap⟩ :: chunksOf cap ((s :: rest).drop cap)
termination_by l => l.length
decreasing_by
  · simp
  · simp; omega

/-- Modelled from the spec: `compact()` — copy the live slots into fresh dense
chunks, drop emptied chunks and rebuild the (derived) rowid index. -/
def compact (st : Store) : Except VecError Store :=
  .ok { st with chunks := chunksOf st.cap (liveSlots st) }

/-- Modelled from the spec: the mutation operations of the store. -/
inductive Op
  | allocateChunk
  | insertOp (r : ℤ) (v : List ℤ) (pk : ℤ)
  | deleteOp (r : ℤ)
  | updateOp (r : ℤ) (v : List ℤ) (pk : ℤ)
  | compactOp
deriving DecidableEq

/-- Modelled from the spec: apply one mutation; a failed mutation leaves the
state unchanged (mutations are atomic — fully applied or not applied). -/
def applyOp (st : Store) : Op → Store
  | .allocateChunk => { st with chunks := st.chunks ++ [⟨List.replicate st.cap deadSlot⟩] }
  | .insertOp r v pk =>
    match insert st r v pk with
    | .ok st' => st'
    | .error _ => st
  | .deleteOp r =>
    match delete st r with
    | .ok st' => st'
    | .error _ => st
  | .updateOp r v pk =>
    match update st r v pk with
    | .ok st' => st'
    | .error _ => st
  | .compactOp =>
    match compact st with
    | .ok st' => st'
    | .error _ => st

/-- Apply a sequence of mutations. -/
def applyOps (ops : List Op) (st : Store) : Store := ops.foldl applyOp st

/-! ## Metadata and partition manager (spec §4.4)

Modelled from the spec: each chunk tracks the min/max of the partition key
across its live slots; a query predicate that cannot match this summary lets
the executor skip the chunk without decoding any vector in it. -/

/-- Modelled from the spec: the partition predicate forms (comparisons against
the partition-key value). -/
inductive Pred
  | eqv (v : ℤ)
  | lev (v : ℤ)
  | gev (v : ℤ)
  | between (lo hi : ℤ)
deriving DecidableEq

/-- Modelled from the spec: whether a partition-key value satisfies a
predicate. -/
def predHolds : Pred → ℤ → Bool
  | .eqv v, x => decide (x = v)
  | .lev v, x => decide (x ≤ v)
  | .gev v, x => decide (v ≤ x)
  | .between lo hi, x => decide (lo ≤ x) && decide (x ≤ hi)

/-- Whether a row passes the (optional) partition predicate of a query. -/
def predOpt : Option Pred → ℤ → Bool
  | none, _ => true
  | some p, x => predHolds p x

/-- The partition-key values of the live slots of a chunk. -/
def livePkeys (ch : Chunk) : List ℤ :=
  (ch.slots.filter fun sl => sl.live).map Slot.pkey

/-- Modelled from the spec: the chunk summary — min and max of the partition
key across the live slots, `none` for a chunk with no live slot. -/
def summary (ch : Chunk) : Option (ℤ × ℤ) :=
  match livePkeys ch with
  | [] => none
  | x :: xs => some (xs.foldl min x, xs.foldl max x)

/-- Modelled from the spec: whether a predicate can possibly match a chunk
whose live partition keys all lie in the summarized range. -/
def canMatch : Pred → Option (ℤ × ℤ) → Bool
  | _, none => false
  | .eqv v, some (lo, hi) => decide (lo ≤ v) && decide (v ≤ hi)
  | .lev v, some (lo, _) => decide (lo ≤ v)
  | .gev v, some (_, hi) => decide (v ≤ hi)
  | .between lo hi, some (slo, shi) => decide (slo ≤ hi) && decide (lo ≤ shi)

/-- Modelled from the spec: a chunk is a scan candidate when there is no
predicate, or when the predicate can match the chunk's summary. -/
def candidateB : Option Pred → Chunk → Bool
  | none, _ => true
  | some p, ch => canMatch p (summary ch)

/-! ## KNN query planner/executor (spec §4.5)

Modelled from the spec: validate the query, short-circuit `k = 0` without
scanning, build the candidate chunk list by partition pruning, then scan
every live matching slot, offering `(distance, rowid)` to a bounded
max-structure of size ≤ k keyed by distance with ties broken by ascending
rowid, and return the drained ascending sequence together with the scan
counters. -/

/-- One result entry: the distance and the rowid of a returned row. -/
abbrev Hit := ℚ × ℤ

/-- The executor's result order: ascending distance, ties broken by ascending
rowid — the only defined tie-break. -/
def hitLe (x y : Hit) : Prop := x.1 < y.1 ∨ (x.1 = y.1 ∧ x.2 ≤ y.2)

instance hitLe.dec : DecidableRel hitLe := fun x y =>
  inferInstanceAs (Decidable (x.1 < y.1 ∨ (x.1 = y.1 ∧ x.2 ≤ y.2)))

/-- The strict version of `hitLe`: equal distances force strictly smaller
rowids earlier. -/
def hitLt (x y : Hit) : Prop := x.1 < y.1 ∨ (x.1 = y.1 ∧ x.2 < y.2)

instance : IsTotal Hit hitLe where
  total x y := by
    rcases lt_trichotomy x.1 y.1 with h | h | h
    · exact .inl (.inl h)
    · rcases Int.le_total x.2 y.2 with h2 | h2
      · exact .inl (.inr ⟨h, h2⟩)
      · exact .inr (.inr ⟨h.symm, h2⟩)
    · exact .inr (.inl h)

instance : IsTrans Hit hitLe where
  trans x y z hxy hyz := by
    rcases hxy with h1 | ⟨e1, l1⟩
    · rcases hyz with h2 | ⟨e2, _⟩
      · exact .inl (h1.trans h2)
      · exact .inl (e2 ▸ h1)
    · rcases hyz with h2 | ⟨e2, l2⟩
      · exact .inl (e1 ▸ h2)
      · exact .inr ⟨e1.trans e2, l1.trans l2⟩

/-- The distance-and-rowid key of a live slot for a given metric and query
vector. -/
def rowHit (m : Metric) (qv : List ℤ) (sl : Slot) : Hit :=
  (metricDist m qv sl.vec, sl.rowid)

/-- Modelled from the spec: offer a key to the bounded structure of size ≤ k —
insert in ascending order, then drop everything beyond the k smallest. -/
def offerH (k : ℕ) (acc : List Hit) (h : Hit) : List Hit :=
  (List.orderedInsert hitLe h acc).take k

/-- Modelled from the spec: a KNN query — query vector, `k`, optional
partition predicate and metric. -/
structure KnnQuery where
  qvec : List ℤ
  k : ℕ
  pred : Option Pred
  metric : Metric
deriving DecidableEq

/-- The executor's output: the materialized ordered result sequence and the
scan counters (chunks visited, distances computed). -/
structure KnnOut where
  hits : List Hit
  chunksVisited : ℕ
  distsComputed : ℕ
deriving DecidableEq

/-- Modelled from the spec: scan the live matching slots of one candidate
chunk, offering each computed distance to the bounded structure. -/
def scanSlots (k : ℕ) (m : Metric) (qv : List ℤ) (p : Option Pred) :
    List Slot → KnnOut → KnnOut
  | [], s => s
  | sl :: rest, s =>
    if sl.live && predOpt p sl.pkey then
      scanSlots k m qv p rest
        ⟨offerH k s.hits (rowHit m qv sl), s.chunksVisited, s.distsComputed + 1⟩
    else scanSlots k m qv p rest s

/-- Modelled from the spec: scan the chunk sequence, visiting only candidate
chunks (partition pruning) and skipping the rest without decoding any
vector. -/
def scanChunks (k : ℕ) (m : Metric) (qv : List ℤ) (p : Option Pred) :
    List Chunk → KnnOut → KnnOut
  | [], s => s
  | ch :: rest, s =>
    if candidateB p ch then
      scanChunks k m qv p rest
        (scanSlots k m qv p ch.slots ⟨s.hits, s.chunksVisited + 1, s.distsComputed⟩)
    else scanChunks k m qv p rest s

/-- Modelled from the spec: the KNN executor — validate dimension and
metric/encoding compatibility, return the empty sequence with no scan for
`k = 0`, else scan the candidate chunks and return the drained bounded
structure in ascending order. -/
def knnExec (st : Store) (q : KnnQuery) : Except VecError KnnOut :=
  if q.qvec.length ≠ st.dim then .error .DimensionMismatch
  else if q.metric = .hamming ∧ st.enc ≠ .bit then .error .InvalidQuery
  else if q.k = 0 then .ok ⟨[], 0, 0⟩
  else .ok (scanChunks q.k q.metric q.qvec q.pred st.chunks ⟨[], 0, 0⟩)

/-! ## The brute-force reference (spec §8) -/

/-- The live slots that satisfy the (optional) partition predicate. -/
def matchingSlots (st : Store) (p : Option Pred) : List Slot :=
  (liveSlots st).filter fun sl => predOpt p sl.pkey

/-- Sort hits into ascending `hitLe` order by repeated ordered insertion. -/
def sortHits (l : List Hit) : List Hit :=
  l.foldl (fun s h => List.orderedInsert hitLe h s) []

/-- The brute-force reference result: compute the distance to every live row
that satisfies the predicate directly, sort by ascending distance (ties by
ascending rowid) and truncate to the k smallest. -/
def bruteForce (st : Store) (q : KnnQuery) : List Hit :=
  (sortHits ((matchingSlots st q.pred).map (rowHit q.metric q.qvec))).take q.k

/-- The result sequence of an executor call, empty on error (used to state
claims about returned sequences). -/
def hitsOf (e : Except VecError KnnOut) : List Hit :=
  match e with
  | .ok o => o.hits
  | .error _ => []

/-- The keys contributed by the live matching slots of one slot list, in
storage order. -/
def slotHits (m : Metric) (qv : List ℤ) (p : Option Pred) (slots : List Slot) : List Hit :=
  (slots.filter fun sl => sl.live && predOpt p sl.pkey).map (rowHit m qv)

/-- The keys contributed by every chunk of a chunk sequence. -/
def chunksHits (m : Metric) (qv : List ℤ) (p : Option Pred) (chunks : List Chunk) : List Hit :=
  chunks.flatMap fun ch => slotHits m qv p ch.slots

/-- The keys contributed by the candidate (non-pruned) chunks only. -/
def candHits (m : Metric) (qv : List ℤ) (p : Option Pred) (chunks : List Chunk) : List Hit :=
  (chunks.filter (candidateB p)).flatMap fun ch => slotHits m qv p ch.slots

/-- Whether a mutation (re-)inserts the given rowid (an insert or an update of
that rowid). -/
def reinserts (r : ℤ) : Op → Bool
  | .insertOp r' _ _ => decide (r' = r)
  | .updateOp r' _ _ => decide (r' = r)
  | _ => false

/-- The store invariant at the heart of the index bijection: the live rowids
are pairwise distinct. -/
def InvR (st : Store) : Prop := (liveRowids st).Nodup

/-- A small concrete collection used to evaluate the executor on explicit
inputs: dimension 1, capacity 4, one chunk with three live rows (rowids 1, 2,
3 at distances 0, 1, 4 from the query vector `[0]`; partition keys 0, 1, 1)
and one free slot. -/
def exStore : Store :=
  ⟨1, .float32, 4,
   [⟨[⟨true, 1, [0], 0⟩, ⟨true, 2, [1], 1⟩, ⟨true, 3, [2], 1⟩, deadSlot]⟩]⟩

/-- A concrete query without a partition predicate against `exStore`. -/
def exQueryNoPred : KnnQuery := ⟨[0], 2, none, .l2sq⟩

/-- The same concrete query with the partition predicate `pkey = 1`. -/
def exQueryPred : KnnQuery := ⟨[0], 2, some (.eqv 1), .l2sq⟩

/-! ## Facts about bounded ordered insertion (the top-k structure) -/

section TopK

variable {α : Type} (r : α → α → Prop) [DecidableRel r]

theorem take_orderedInsert_take :
    ∀ (k : ℕ) (x : α) (l : List α),
      ((l.take k).orderedInsert r x).take k = (l.orderedInsert r x).take k := by
  intro k x l
  induction l generalizing k with
  | nil => simp
  | cons h t ih =>
    cases k with
    | zero => simp
    | succ n =>
      rw [List.take_succ_cons]
      by_cases hr : r x h
      · simp only [List.orderedInsert, if_pos hr, List.take_succ_cons]
        congr 1
        cases n with
        | zero => simp
        | succ m =>
          rw [List.take_succ_cons, List.take_succ_cons]
          congr 1
          rw [List.take_take]
          congr 1
          omega
      · simp only [List.orderedInsert, if_neg hr, List.take_succ_cons]
        congr 1
        exact ih n

theorem foldl_orderedInsert_sorted [IsTotal α r] [IsTrans α r] :
    ∀ (l init : List α), init.Sorted r →
      (l.foldl (fun s x => s.orderedInsert r x) init).Sorted r := by
  intro l
  induction l with
  | nil => intro init h; simpa using h
  | cons x t ih =>
    intro init h
    rw [List.foldl_cons]
    exact ih _ (List.Sorted.orderedInsert x init h)

theorem foldl_orderedInsert_perm :
    ∀ (l init : List α), (l.foldl (fun s x => s.orderedInsert r x) init).Perm (init ++ l) := by
  intro l
  induction l with
  | nil => intro init; simp
  | cons x t ih =>
    intro init
    rw [List.foldl_cons]
    exact (ih _).trans
      (((List.perm_orderedInsert r x init).append_right t).trans List.perm_middle.symm)

theorem foldl_offer_eq :
    ∀ (k : ℕ) (l pre : List α),
      l.foldl (fun acc x => (acc.orderedInsert r x).take k)
          ((pre.foldl (fun s x => s.orderedInsert r x) []).take k)
        = ((pre ++ l).foldl (fun s x => s.orderedInsert r x) []).take k := by
  intro k l
  induction l with
  | nil => intro pre; simp
  | cons x t ih =>
    intro pre
    rw [List.foldl_cons]
    have h1 : (((pre.foldl (fun s x => s.orderedInsert r x) []).take k).orderedInsert r x).take k
        = ((pre ++ [x]).foldl (fun s x => s.orderedInsert r x) []).take k := by
      rw [take_orderedInsert_take, List.foldl_append, List.foldl_cons, List.foldl_nil]
    rw [h1, ih (pre ++ [x]), List.append_assoc, List.singleton_append]

end TopK

theorem sortHits_sorted (l : List Hit) : (sortHits l).Sorted hitLe :=
  foldl_orderedInsert_sorted hitLe l [] List.sorted_nil

theorem sortHits_perm (l : List Hit) : (sortHits l).Perm l := by
  simpa using foldl_orderedInsert_perm hitLe l []

theorem foldl_offerH (k : ℕ) (l : List Hit) :
    l.foldl (offerH k) [] = (sortHits l).take k := by
  have h := foldl_offer_eq hitLe k l []
  simpa [offerH, sortHits] using h

/-! ## Characterization of the executor's scan -/

theorem scanSlots_spec (k : ℕ) (m : Metric) (qv : List ℤ) (p : Option Pred) :
    ∀ (slots : List Slot) (s : KnnOut),
      scanSlots k m qv p slots s =
        ⟨(slotHits m qv p slots).foldl (offerH k) s.hits, s.chunksVisited,
          s.distsComputed + (slotHits m qv p slots).length⟩ := by
  intro slots
  induction slots with
  | nil => intro s; simp [scanSlots, slotHits]
  | cons sl rest ih =>
    intro s
    by_cases hc : (sl.live && predOpt p sl.pkey) = true
    · rw [scanSlots, if_pos hc, ih]
      simp only [slotHits, List.filter_cons, hc, if_true, List.map_cons, List.foldl_cons,
        List.length_cons, KnnOut.mk.injEq, true_and]
      omega
    · rw [scanSlots, if_neg hc, ih]
      simp only [slotHits, List.filter_cons, hc]
      rfl

theorem scanChunks_spec (k : ℕ) (m : Metric) (qv : List ℤ) (p : Option Pred) :
    ∀ (chunks : List Chunk) (s : KnnOut),
      scanChunks k m qv p chunks s =
        ⟨(candHits m qv p chunks).foldl (offerH k) s.hits,
          s.chunksVisited + chunks.countP (candidateB p),
          s.distsComputed + (candHits m qv p chunks).length⟩ := by
  intro chunks
  induction chunks with
  | nil => intro s; simp [scanChunks, candHits]
  | cons ch rest ih =>
    intro s
    by_cases hc : candidateB p ch = true
    · rw [scanChunks, if_pos hc, scanSlots_spec, ih]
      have hcand : candHits m qv p (ch :: rest) = slotHits m qv p ch.slots ++ candHits m qv p rest := by
        simp [candHits, List.filter_cons, hc]
      rw [hcand]
      simp only [List.foldl_append, List.length_append, List.countP_cons, hc, if_true,
        KnnOut.mk.injEq, true_and]
      omega
    · rw [scanChunks, if_neg hc, ih]
      have hcand : candHits m qv p (ch :: rest) = candHits m qv p rest := by
        simp [candHits, List.filter_cons, hc]
      rw [hcand]
      simp [List.countP_cons, hc, KnnOut.mk.injEq]

/-! ## Partition pruning soundness -/

theorem foldl_min_le_init : ∀ (xs : List ℤ) (c : ℤ), xs.foldl min c ≤ c := by
  intro xs
  induction xs with
  | nil => intro c; simp
  | cons b t ih => intro c; exact le_trans (ih (min c b)) (min_le_left c b)

theorem init_le_foldl_max : ∀ (xs : List ℤ) (c : ℤ), c ≤ xs.foldl max c := by
  intro xs
  induction xs with
  | nil => intro c; simp
  | cons b t ih => intro c; exact le_trans (le_max_left c b) (ih (max c b))

theorem foldl_min_le : ∀ (xs : List ℤ) (a x : ℤ), x ∈ a :: xs → xs.foldl min a ≤ x := by
  intro xs
  induction xs with
  | nil =>
    intro a x hx
    rw [List.mem_singleton] at hx
    simp [hx]
  | cons b t ih =>
    intro a x hx
    rcases List.mem_cons.1 hx with h | hx'
    · exact le_trans (le_trans (foldl_min_le_init t (min a b)) (min_le_left a b)) h.ge
    · rcases List.mem_cons.1 hx' with h | h
      · exact le_trans (le_trans (foldl_min_le_init t (min a b)) (min_le_right a b)) h.ge
      · exact ih (min a b) x (List.mem_cons_of_mem _ h)

theorem le_foldl_max : ∀ (xs : List ℤ) (a x : ℤ), x ∈ a :: xs → x ≤ xs.foldl max a := by
  intro xs
  induction xs with
  | nil =>
    intro a x hx
    rw [List.mem_singleton] at hx
    simp [hx]
  | cons b t ih =>
    intro a x hx
    rcases List.mem_cons.1 hx with h | hx'
    · exact le_trans h.le (le_trans (le_max_left a b) (init_le_foldl_max t (max a b)))
    · rcases List.mem_cons.1 hx' with h | h
      · exact le_trans h.le (le_trans (le_max_right a b) (init_le_foldl_max t (max a b)))
      · exact ih (max a b) x (List.mem_cons_of_mem _ h)

theorem summary_bounds (ch : Chunk) (x : ℤ) (hx : x ∈ livePkeys ch) :
    ∃ lo hi, summary ch = some (lo, hi) ∧ lo ≤ x ∧ x ≤ hi := by
  unfold summary
  cases hl : livePkeys ch with
  | nil => rw [hl] at hx; cases hx
  | cons a xs =>
    rw [hl] at hx
    exact ⟨xs.foldl min a, xs.foldl max a, rfl, foldl_min_le xs a x hx, le_foldl_max xs a x hx⟩

theorem canMatch_of_holds (p : Pred) (x lo hi : ℤ) (hlo : lo ≤ x) (hhi : x ≤ hi)
    (hp : predHolds p x = true) : canMatch p (some (lo, hi)) = true := by
  cases p <;> simp [predHolds, canMatch] at hp ⊢ <;> omega

theorem slotHits_eq_nil_of_pruned (m : Metric) (qv : List ℤ) (p : Pred) (ch : Chunk)
    (h : canMatch p (summary ch) = false) : slotHits m qv (some p) ch.slots = [] := by
  unfold slotHits
  rw [List.map_eq_nil_iff, List.filter_eq_nil_iff]
  intro sl hmem hcon
  rw [Bool.and_eq_true] at hcon
  have hpk : sl.pkey ∈ livePkeys ch := by
    unfold livePkeys
    exact List.mem_map_of_mem _ (List.mem_filter.2 ⟨hmem, hcon.1⟩)
  obtain ⟨lo, hi, hs, hlo, hhi⟩ := summary_bounds ch sl.pkey hpk
  have := canMatch_of_holds p sl.pkey lo hi hlo hhi hcon.2
  rw [hs] at h
  rw [this] at h
  cases h

theorem chunksHits_cons (m : Metric) (qv : List ℤ) (p : Option Pred) (ch : Chunk)
    (rest : List Chunk) :
    chunksHits m qv p (ch :: rest) = slotHits m qv p ch.slots ++ chunksHits m qv p rest := by
  simp [chunksHits]

theorem candHits_cons_pos (m : Metric) (qv : List ℤ) (p : Option Pred) (ch : Chunk)
    (rest : List Chunk) (hc : candidateB p ch = true) :
    candHits m qv p (ch :: rest) = slotHits m qv p ch.slots ++ candHits m qv p rest := by
  simp [candHits, List.filter_cons, hc]

theorem candHits_cons_neg (m : Metric) (qv : List ℤ) (p : Option Pred) (ch : Chunk)
    (rest : List Chunk) (hc : ¬ candidateB p ch = true) :
    candHits m qv p (ch :: rest) = candHits m qv p rest := by
  simp [candHits, List.filter_cons, hc]

theorem candHits_eq_chunksHits (m : Metric) (qv : List ℤ) (p : Option Pred) :
    ∀ chunks, candHits m qv p chunks = chunksHits m qv p chunks := by
  intro chunks
  induction chunks with
  | nil => rfl
  | cons ch rest ih =>
    by_cases hc : candidateB p ch = true
    · rw [candHits_cons_pos m qv p ch rest hc, chunksHits_cons, ih]
    · cases hp : p with
      | none => rw [hp] at hc; simp [candidateB] at hc
      | some pr =>
        subst hp
        have hnil : slotHits m qv (some pr) ch.slots = [] := by
          apply slotHits_eq_nil_of_pruned
          simpa [candidateB] using hc
        rw [candHits_cons_neg m qv (some pr) ch rest hc, chunksHits_cons, ih, hnil,
          List.nil_append]

theorem chunksHits_eq_matching (m : Metric) (qv : List ℤ) (p : Option Pred) (st : Store) :
    chunksHits m qv p st.chunks = (matchingSlots st p).map (rowHit m qv) := by
  unfold chunksHits matchingSlots liveSlots
  induction st.chunks with
  | nil => rfl
  | cons ch rest ih =>
    rw [List.flatMap_cons, List.flatMap_cons, List.filter_append, List.map_append, ih]
    congr 1
    unfold slotHits
    congr 1
    rw [List.filter_filter]
    congr 1
    funext sl
    exact Bool.and_comm sl.live (predOpt p sl.pkey)

/-- Every successful executor call returns exactly the k ascending-distance
smallest keys of the live rows matching the predicate. -/
theorem knnExec_hits {st : Store} {q : KnnQuery} {out : KnnOut}
    (h : knnExec st q = .ok out) :
    out.hits = (sortHits ((matchingSlots st q.pred).map (rowHit q.metric q.qvec))).take q.k := by
  unfold knnExec at h
  split_ifs at h with h1 h2 h3
  · have hout := Except.ok.inj h
    rw [← hout, h3]
    simp
  · have hout := Except.ok.inj h
    rw [← hout, scanChunks_spec]
    dsimp only
    rw [candHits_eq_chunksHits, chunksHits_eq_matching, foldl_offerH]

/-! ## Liveness structure of the store under mutations -/

theorem mem_liveSlots_live (st : Store) : ∀ sl ∈ liveSlots st, sl.live = true := by
  intro sl h
  unfold liveSlots at h
  rw [List.mem_flatMap] at h
  obtain ⟨ch, _, hmem⟩ := h
  exact (List.mem_filter.1 hmem).2

theorem filter_live_replicate_dead (n : ℕ) :
    (List.replicate n deadSlot).filter (fun sl => sl.live) = [] := by
  rw [List.filter_replicate]
  simp [deadSlot]

theorem liveSlots_alloc (st : Store) (cap : ℕ) :
    liveSlots { st with chunks := st.chunks ++ [⟨List.replicate cap deadSlot⟩] }
      = liveSlots st := by
  unfold liveSlots
  rw [List.flatMap_append]
  simp [filter_live_replicate_dead]

theorem fillFree_filter_live (sl : Slot) (hsl : sl.live = true) :
    ∀ slots : List Slot, (slots.any fun s => !s.live) = true →
      ((fillFree slots sl).filter (fun s => s.live)).Perm
        (sl :: slots.filter (fun s => s.live)) := by
  intro slots
  induction slots with
  | nil => intro h; simp at h
  | cons s rest ih =>
    intro h
    by_cases hs : s.live = true
    · rw [fillFree, if_pos hs]
      have hrest : (rest.any fun s => !s.live) = true := by
        rw [List.any_cons, hs] at h
        simpa using h
      rw [List.filter_cons_of_pos hs, List.filter_cons_of_pos hs]
      exact ((ih hrest).cons s).trans (List.Perm.swap sl s _)
    · rw [fillFree, if_neg hs]
      rw [List.filter_cons_of_pos hsl, List.filter_cons_of_neg (by simpa using hs)]

theorem placeLast_filter_live (sl : Slot) (hsl : sl.live = true) :
    ∀ (chunks cs : List Chunk), placeLast chunks sl = some cs →
      (cs.flatMap fun ch => ch.slots.filter fun s => s.live).Perm
        (sl :: chunks.flatMap fun ch => ch.slots.filter fun s => s.live) := by
  intro chunks
  induction chunks with
  | nil => intro cs h; cases h
  | cons ch rest ih =>
    intro cs h
    rw [placeLast] at h
    cases hrec : placeLast rest sl with
    | some rest' =>
      rw [hrec] at h
      have hcs := Option.some.inj h
      rw [← hcs, List.flatMap_cons, List.flatMap_cons]
      exact ((ih rest' hrec).append_left _).trans List.perm_middle
    | none =>
      rw [hrec] at h
      by_cases hfree : hasFreeSlot ch = true
      · rw [if_pos hfree] at h
        have hcs := Option.some.inj h
        rw [← hcs, List.flatMap_cons, List.flatMap_cons]
        exact (fillFree_filter_live sl hsl ch.slots hfree).append_right _
      · rw [if_neg hfree] at h; cases h

theorem liveSlots_insertRaw (st : Store) (sl : Slot) (hsl : sl.live = true) :
    (liveSlots (insertRaw st sl)).Perm (sl :: liveSlots st) := by
  unfold insertRaw
  cases hpl : placeLast st.chunks sl with
  | some cs =>
    dsimp only
    exact placeLast_filter_live sl hsl st.chunks cs hpl
  | none =>
    dsimp only
    unfold liveSlots freshChunk
    rw [List.flatMap_append]
    simp only [List.flatMap_cons, List.flatMap_nil, List.append_nil]
    rw [List.filter_cons_of_pos hsl, filter_live_replicate_dead]
    exact List.perm_append_singleton sl _

theorem killIn_filter_live (r : ℤ) (slots : List Slot) :
    (((killIn r ⟨slots⟩).slots).filter fun s => s.live)
      = ((slots.filter fun s => s.live).filter fun sl => !(decide (sl.rowid = r))) := by
  unfold killIn
  induction slots with
  | nil => rfl
  | cons s t ih =>
    rw [List.map_cons]
    by_cases hlive : s.live = true
    · by_cases hr : s.rowid = r
      · rw [if_pos ⟨hlive, hr⟩]
        rw [List.filter_cons_of_neg (by simp), List.filter_cons_of_pos hlive,
          List.filter_cons_of_neg (by simp [hr])]
        exact ih
      · rw [if_neg (by simp [hr])]
        rw [List.filter_cons_of_pos hlive, List.filter_cons_of_pos hlive,
          List.filter_cons_of_pos (by simp [hr])]
        rw [ih]
    · rw [if_neg (by simp [hlive])]
      rw [List.filter_cons_of_neg (by simpa using hlive),
        List.filter_cons_of_neg (by simpa using hlive)]
      exact ih

theorem liveSlots_kill (st : Store) (r : ℤ) :
    liveSlots { st with chunks := st.chunks.map (killIn r) }
      = (liveSlots st).filter fun sl => !(decide (sl.rowid = r)) := by
  unfold liveSlots
  dsimp only
  induction st.chunks with
  | nil => rfl
  | cons ch rest ih =>
    rw [List.map_cons, List.flatMap_cons, List.flatMap_cons, List.filter_append, ih]
    congr 1
    have h := killIn_filter_live r ch.slots
    simpa using h

theorem chunksOf_flat (cap : ℕ) : ∀ l : List Slot, ((chunksOf cap l).flatMap Chunk.slots) = l := by
  have key : ∀ (n : ℕ) (l : List Slot), l.length ≤ n →
      ((chunksOf cap l).flatMap Chunk.slots) = l := by
    intro n
    induction n with
    | zero =>
      intro l h
      have hl : l = [] := List.eq_nil_of_length_eq_zero (by omega)
      subst hl
      simp [chunksOf]
    | succ n ihn =>
      intro l hl
      cases l with
      | nil => simp [chunksOf]
      | cons s rest =>
        rw [chunksOf]
        by_cases hcap : cap ≤ 1
        · rw [if_pos hcap, List.flatMap_cons,
            ihn rest (by simp only [List.length_cons] at hl; omega)]
          rfl
        · rw [if_neg hcap, List.flatMap_cons,
            ihn ((s :: rest).drop cap)
              (by rw [List.length_drop]; simp only [List.length_cons] at hl ⊢; omega)]
          exact List.take_append_drop cap (s :: rest)
  exact fun l => key l.length l le_rfl

theorem flatMap_filter_live (cs : List Chunk) :
    (cs.flatMap fun ch => ch.slots.filter fun sl => sl.live)
      = (cs.flatMap Chunk.slots).filter fun sl => sl.live := by
  induction cs with
  | nil => rfl
  | cons ch rest ih => rw [List.flatMap_cons, List.flatMap_cons, List.filter_append, ih]

theorem liveSlots_compact (st : Store) :
    liveSlots { st with chunks := chunksOf st.cap (liveSlots st) } = liveSlots st := by
  conv_lhs => unfold liveSlots
  dsimp only
  rw [flatMap_filter_live, chunksOf_flat]
  exact List.filter_eq_self.2 (mem_liveSlots_live st)

/-! ## The live-rowid invariant under mutations -/

theorem liveRowids_insertRaw (st : Store) (sl : Slot) (hsl : sl.live = true) :
    (liveRowids (insertRaw st sl)).Perm (sl.rowid :: liveRowids st) :=
  (liveSlots_insertRaw st sl hsl).map Slot.rowid

theorem invr_insert {st st' : Store} {r : ℤ} {v : List ℤ} {pk : ℤ}
    (h : insert st r v pk = .ok st') (hi : InvR st) : InvR st' := by
  unfold insert at h
  by_cases hmem : r ∈ liveRowids st
  · rw [if_pos hmem] at h; cases h
  · rw [if_neg hmem] at h
    have hst := Except.ok.inj h
    rw [← hst]
    exact (liveRowids_insertRaw st ⟨true, r, v, pk⟩ rfl).symm.nodup
      (List.nodup_cons.2 ⟨hmem, hi⟩)

theorem invr_delete {st st' : Store} {r : ℤ} (h : delete st r = .ok st') (hi : InvR st) :
    InvR st' := by
  unfold delete at h
  by_cases hmem : r ∈ liveRowids st
  · rw [if_pos hmem] at h
    have hst := Except.ok.inj h
    rw [← hst]
    unfold InvR liveRowids
    rw [liveSlots_kill]
    exact ((List.filter_sublist _).map Slot.rowid).nodup hi
  · rw [if_neg hmem] at h; cases h

theorem invr_applyOp (st : Store) (op : Op) (hi : InvR st) : InvR (applyOp st op) := by
  cases op with
  | allocateChunk =>
    unfold InvR liveRowids
    show ((liveSlots { st with chunks := st.chunks ++ [⟨List.replicate st.cap deadSlot⟩] }).map
      Slot.rowid).Nodup
    rw [liveSlots_alloc]
    exact hi
  | insertOp r v pk =>
    show InvR (match insert st r v pk with | .ok st' => st' | .error _ => st)
    cases hins : insert st r v pk with
    | ok st' => exact invr_insert hins hi
    | error e => exact hi
  | deleteOp r =>
    show InvR (match delete st r with | .ok st' => st' | .error _ => st)
    cases hdel : delete st r with
    | ok st' => exact invr_delete hdel hi
    | error e => exact hi
  | updateOp r v pk =>
    show InvR (match update st r v pk with | .ok st' => st' | .error _ => st)
    cases hupd : update st r v pk with
    | error e => exact hi
    | ok st' =>
      unfold update at hupd
      cases hdel : delete st r with
      | error e => rw [hdel] at hupd; cases hupd
      | ok st1 => rw [hdel] at hupd; exact invr_insert hupd (invr_delete hdel hi)
  | compactOp =>
    show InvR (match compact st with | .ok st' => st' | .error _ => st)
    unfold compact
    unfold InvR liveRowids
    rw [liveSlots_compact]
    exact hi

theorem invr_applyOps : ∀ (ops : List Op) (st : Store), InvR st → InvR (applyOps ops st) := by
  intro ops
  induction ops with
  | nil => intro st h; exact h
  | cons op rest ih =>
    intro st h
    exact ih (applyOp st op) (invr_applyOp st op h)

theorem invr_mkStore (dim : ℕ) (enc : Encoding) (cap : ℕ) : InvR (mkStore dim enc cap) := by
  unfold InvR liveRowids liveSlots mkStore
  simp

theorem invr_reachable (dim : ℕ) (enc : Encoding) (cap : ℕ) (ops : List Op) :
    InvR (applyOps ops (mkStore dim enc cap)) :=
  invr_applyOps ops _ (invr_mkStore dim enc cap)

/-! ## Deleted rowids stay invisible -/

theorem notmem_delete {st st' : Store} {r r' : ℤ} (h : delete st r' = .ok st')
    (hr : r ∉ liveRowids st) : r ∉ liveRowids st' := by
  unfold delete at h
  by_cases hmem : r' ∈ liveRowids st
  · rw [if_pos hmem] at h
    have hst := Except.ok.inj h
    rw [← hst]
    intro hcon
    apply hr
    unfold liveRowids at hcon ⊢
    rw [liveSlots_kill] at hcon
    exact ((List.filter_sublist _).map Slot.rowid).subset hcon
  · rw [if_neg hmem] at h; cases h

theorem notmem_insert {st st' : Store} {r r' : ℤ} {v : List ℤ} {pk : ℤ}
    (h : insert st r' v pk = .ok st') (hne : r' ≠ r) (hr : r ∉ liveRowids st) :
    r ∉ liveRowids st' := by
  unfold insert at h
  by_cases hmem : r' ∈ liveRowids st
  · rw [if_pos hmem] at h; cases h
  · rw [if_neg hmem] at h
    have hst := Except.ok.inj h
    rw [← hst]
    intro hcon
    have hperm := liveRowids_insertRaw st ⟨true, r', v, pk⟩ rfl
    rcases List.mem_cons.1 (hperm.subset hcon) with he | hm
    · exact hne he.symm
    · exact hr hm

theorem notlive_applyOp {st : Store} {r : ℤ} (op : Op) (hr : r ∉ liveRowids st)
    (hop : reinserts r op = false) : r ∉ liveRowids (applyOp st op) := by
  cases op with
  | allocateChunk =>
    show r ∉ liveRowids { st with chunks := st.chunks ++ [⟨List.replicate st.cap deadSlot⟩] }
    unfold liveRowids
    rw [liveSlots_alloc]
    exact hr
  | insertOp r' v pk =>
    have hne : r' ≠ r := by simpa [reinserts] using hop
    show r ∉ liveRowids (match insert st r' v pk with | .ok st' => st' | .error _ => st)
    cases hins : insert st r' v pk with
    | ok st' => exact notmem_insert hins hne hr
    | error e => exact hr
  | deleteOp r' =>
    show r ∉ liveRowids (match delete st r' with | .ok st' => st' | .error _ => st)
    cases hdel : delete st r' with
    | ok st' => exact notmem_delete hdel hr
    | error e => exact hr
  | updateOp r' v pk =>
    have hne : r' ≠ r := by simpa [reinserts] using hop
    show r ∉ liveRowids (match update st r' v pk with | .ok st' => st' | .error _ => st)
    cases hupd : update st r' v pk with
    | error e => exact hr
    | ok st' =>
      unfold update at hupd
      cases hdel : delete st r' with
      | error e => rw [hdel] at hupd; cases hupd
      | ok st1 => rw [hdel] at hupd; exact notmem_insert hupd hne (notmem_delete hdel hr)
  | compactOp =>
    show r ∉ liveRowids (match compact st with | .ok st' => st' | .error _ => st)
    unfold compact
    unfold liveRowids
    rw [liveSlots_compact]
    exact hr

theorem notlive_applyOps {r : ℤ} : ∀ (ops : List Op) (st : Store), r ∉ liveRowids st →
    (∀ op ∈ ops, reinserts r op = false) → r ∉ liveRowids (applyOps ops st) := by
  intro ops
  induction ops with
  | nil => intro st h _; exact h
  | cons op rest ih =>
    intro st h hops
    exact ih (applyOp st op) (notlive_applyOp op h (hops op (List.mem_cons_self op rest)))
      fun o ho => hops o (List.mem_cons_of_mem op ho)

theorem hits_rowid_live {st : Store} {q : KnnQuery} {out : KnnOut}
    (h : knnExec st q = .ok out) : ∀ x ∈ out.hits, x.2 ∈ liveRowids st := by
  intro x hx
  rw [knnExec_hits h] at hx
  have hx3 := (sortHits_perm _).subset (List.take_subset _ _ hx)
  obtain ⟨sl, hsl, hrw⟩ := List.mem_map.1 hx3
  unfold matchingSlots at hsl
  unfold liveRowids
  have hlv : sl ∈ liveSlots st := (List.filter_sublist _).subset hsl
  have : x.2 = sl.rowid := by rw [← hrw]; rfl
  rw [this]
  exact List.mem_map_of_mem _ hlv

/-! ## The derived rowid index -/

theorem chunkEntries_map_fst (c : ℕ) :
    ∀ (slots : List Slot) (s0 : ℕ),
      (chunkEntries c slots s0).map Prod.fst
        = (slots.filter fun sl => sl.live).map Slot.rowid := by
  intro slots
  induction slots with
  | nil => intro s0; rfl
  | cons sl rest ih =>
    intro s0
    rw [chunkEntries, List.map_append, ih]
    by_cases hl : sl.live = true
    · rw [if_pos hl, List.filter_cons_of_pos hl]
      rfl
    · rw [if_neg hl, List.filter_cons_of_neg (by simpa using hl)]
      rfl

theorem storeEntries_map_fst :
    ∀ (chunks : List Chunk) (c0 : ℕ),
      (storeEntries chunks c0).map Prod.fst
        = chunks.flatMap fun ch => (ch.slots.filter fun sl => sl.live).map Slot.rowid := by
  intro chunks
  induction chunks with
  | nil => intro c0; rfl
  | cons ch rest ih =>
    intro c0
    rw [storeEntries, List.map_append, ih, chunkEntries_map_fst, List.flatMap_cons]

theorem liveEntries_map_fst (st : Store) :
    (liveEntries st).map Prod.fst = liveRowids st := by
  unfold liveEntries liveRowids liveSlots
  rw [storeEntries_map_fst, List.map_flatMap]

theorem chunkEntries_mem (c : ℕ) :
    ∀ (slots : List Slot) (s0 : ℕ) (r : ℤ) (c' s' : ℕ),
      (r, c', s') ∈ chunkEntries c slots s0 ↔
        ∃ i sl, slots.get? i = some sl ∧ sl.live = true ∧ sl.rowid = r ∧
          c' = c ∧ s' = s0 + i := by
  intro slots
  induction slots with
  | nil =>
    intro s0 r c' s'
    constructor
    · intro h; cases h
    · rintro ⟨i, sl, hget, _⟩
      rw [show ([] : List Slot).get? i = none from rfl] at hget
      cases hget
  | cons sl rest ih =>
    intro s0 r c' s'
    rw [chunkEntries]
    constructor
    · intro h
      rcases List.mem_append.1 h with h1 | h2
      · by_cases hl : sl.live = true
        · rw [if_pos hl, List.mem_singleton] at h1
          obtain ⟨hr, hc, hs⟩ : r = sl.rowid ∧ c' = c ∧ s' = s0 := by
            refine ⟨congrArg Prod.fst h1, ?_, ?_⟩
            · exact congrArg (fun e => e.2.1) h1
            · exact congrArg (fun e => e.2.2) h1
          exact ⟨0, sl, List.get?_cons_zero, hl, hr.symm, hc, by omega⟩
        · rw [if_neg hl] at h1; cases h1
      · obtain ⟨i, sl', hget, hlive, hrow, hc, hs⟩ := (ih (s0 + 1) r c' s').1 h2
        exact ⟨i + 1, sl', by simpa using hget, hlive, hrow, hc, by omega⟩
    · rintro ⟨i, sl', hget, hlive, hrow, hc, hs⟩
      cases i with
      | zero =>
        rw [List.get?_cons_zero] at hget
        have hsl := Option.some.inj hget
        subst hsl
        refine List.mem_append.2 (.inl ?_)
        rw [if_pos hlive, List.mem_singleton]
        subst hrow hc
        have hs0 : s' = s0 := by omega
        subst hs0
        rfl
      | succ i =>
        rw [List.get?_cons_succ] at hget
        exact List.mem_append.2
          (.inr ((ih (s0 + 1) r c' s').2 ⟨i, sl', hget, hlive, hrow, hc, by omega⟩))

theorem storeEntries_mem :
    ∀ (chunks : List Chunk) (c0 : ℕ) (e : ℤ × ℕ × ℕ),
      e ∈ storeEntries chunks c0 ↔
        ∃ j ch, chunks.get? j = some ch ∧ e ∈ chunkEntries (c0 + j) ch.slots 0 := by
  intro chunks
  induction chunks with
  | nil =>
    intro c0 e
    constructor
    · intro h; cases h
    · rintro ⟨j, ch, hget, _⟩
      rw [show ([] : List Chunk).get? j = none from rfl] at hget
      cases hget
  | cons ch rest ih =>
    intro c0 e
    rw [storeEntries]
    constructor
    · intro h
      rcases List.mem_append.1 h with h1 | h2
      · exact ⟨0, ch, List.get?_cons_zero, by simpa using h1⟩
      · obtain ⟨j, ch', hget, hmem⟩ := (ih (c0 + 1) e).1 h2
        exact ⟨j + 1, ch', by simpa using hget, by rw [show c0 + (j + 1) = c0 + 1 + j by omega]; exact hmem⟩
    · rintro ⟨j, ch', hget, hmem⟩
      cases j with
      | zero =>
        rw [List.get?_cons_zero] at hget
        have := Option.some.inj hget
        subst this
        exact List.mem_append.2 (.inl (by simpa using hmem))
      | succ j =>
        rw [List.get?_cons_succ] at hget
        refine List.mem_append.2 (.inr ((ih (c0 + 1) e).2 ⟨j, ch', hget, ?_⟩))
        rw [show c0 + 1 + j = c0 + (j + 1) by omega]
        exact hmem

/-- Soundness and completeness of the derived rowid index: `(r, c, s)` is an
index entry exactly when chunk `c` holds at slot `s` a live record with rowid
`r`. -/
theorem liveEntries_mem (st : Store) (r : ℤ) (c s : ℕ) :
    (r, c, s) ∈ liveEntries st ↔
      ∃ ch sl, st.chunks.get? c = some ch ∧ ch.slots.get? s = some sl ∧
        sl.live = true ∧ sl.rowid = r := by
  unfold liveEntries
  rw [storeEntries_mem]
  constructor
  · rintro ⟨j, ch, hget, hmem⟩
    rw [show (0 : ℕ) + j = j from by omega] at hmem
    obtain ⟨i, sl, hgeti, hlive, hrow, hc, hs⟩ := (chunkEntries_mem j ch.slots 0 r c s).1 hmem
    subst hc
    have : s = i := by omega
    subst this
    exact ⟨ch, sl, hget, hgeti, hlive, hrow⟩
  · rintro ⟨ch, sl, hget, hgeti, hlive, hrow⟩
    refine ⟨c, ch, hget, ?_⟩
    rw [show (0 : ℕ) + c = c from by omega]
    exact (chunkEntries_mem c ch.slots 0 r c s).2 ⟨s, sl, hgeti, hlive, hrow, rfl, by omega⟩

theorem chunkEntries_coords (c : ℕ) :
    ∀ (slots : List Slot) (s0 : ℕ) (e : ℤ × ℕ × ℕ), e ∈ chunkEntries c slots s0 →
      e.2.1 = c ∧ s0 ≤ e.2.2 := by
  intro slots
  induction slots with
  | nil => intro s0 e h; cases h
  | cons sl rest ih =>
    intro s0 e h
    rw [chunkEntries] at h
    rcases List.mem_append.1 h with h1 | h2
    · by_cases hl : sl.live = true
      · rw [if_pos hl, List.mem_singleton] at h1
        subst h1
        exact ⟨rfl, le_rfl⟩
      · rw [if_neg hl] at h1; cases h1
    · obtain ⟨hc, hs⟩ := ih (s0 + 1) e h2
      exact ⟨hc, by omega⟩

theorem chunkEntries_snd_nodup (c : ℕ) :
    ∀ (slots : List Slot) (s0 : ℕ),
      ((chunkEntries c slots s0).map fun e => e.2).Nodup := by
  intro slots
  induction slots with
  | nil => intro s0; exact List.nodup_nil
  | cons sl rest ih =>
    intro s0
    rw [chunkEntries, List.map_append]
    by_cases hl : sl.live = true
    · rw [if_pos hl]
      refine List.Nodup.append (by simp) (ih (s0 + 1)) ?_
      intro x hx hy
      simp only [List.map_cons, List.map_nil, List.mem_singleton] at hx
      obtain ⟨e, he, hex⟩ := List.mem_map.1 hy
      have hcoord := (chunkEntries_coords c rest (s0 + 1) e he).2
      rw [hx] at hex
      have h2 : e.2.2 = s0 := by rw [hex]
      omega
    · rw [if_neg hl]
      exact ih (s0 + 1)

theorem storeEntries_coords :
    ∀ (chunks : List Chunk) (c0 : ℕ) (e : ℤ × ℕ × ℕ), e ∈ storeEntries chunks c0 →
      c0 ≤ e.2.1 := by
  intro chunks
  induction chunks with
  | nil => intro c0 e h; cases h
  | cons ch rest ih =>
    intro c0 e h
    rw [storeEntries] at h
    rcases List.mem_append.1 h with h1 | h2
    · exact (chunkEntries_coords c0 ch.slots 0 e h1).1.ge
    · exact le_trans (by omega) (ih (c0 + 1) e h2)

theorem storeEntries_snd_nodup :
    ∀ (chunks : List Chunk) (c0 : ℕ),
      ((storeEntries chunks c0).map fun e => e.2).Nodup := by
  intro chunks
  induction chunks with
  | nil => intro c0; exact List.nodup_nil
  | cons ch rest ih =>
    intro c0
    rw [storeEntries, List.map_append]
    refine List.Nodup.append (chunkEntries_snd_nodup c0 ch.slots 0) (ih (c0 + 1)) ?_
    intro x hx hy
    obtain ⟨e, he, hex⟩ := List.mem_map.1 hx
    obtain ⟨e', he', hex'⟩ := List.mem_map.1 hy
    have h1 := (chunkEntries_coords c0 ch.slots 0 e he).1
    have h2 := storeEntries_coords rest (c0 + 1) e' he'
    have : e.2 = e'.2 := by rw [hex, hex']
    have : e.2.1 = e'.2.1 := by rw [this]
    omega

/-- The positions named by the rowid index are pairwise distinct: no two index
entries (hence no two live rowids) share a (chunk, slot) pair. -/
theorem liveEntries_snd_nodup (st : Store) :
    ((liveEntries st).map fun e => e.2).Nodup :=
  storeEntries_snd_nodup st.chunks 0

/-! ## Bounds of the cosine kernel -/

theorem dotp_cons (x y : ℤ) (xs ys : List ℤ) :
    dotp (x :: xs) (y :: ys) = x * y + dotp xs ys := by
  simp [dotp]

theorem magSq_cons (x : ℤ) (xs : List ℤ) : magSq (x :: xs) = x * x + magSq xs :=
  dotp_cons x x xs xs

theorem magSq_nonneg (a : List ℤ) : 0 ≤ magSq a := by
  induction a with
  | nil => exact le_refl 0
  | cons x xs ih =>
    rw [magSq_cons]
    have := mul_self_nonneg x
    omega

theorem cs_step (a b d A B : ℤ) (hA : 0 ≤ A) (hB : 0 ≤ B) (hd : d ^ 2 ≤ A * B) :
    (a * b + d) ^ 2 ≤ (a * a + A) * (b * b + B) := by
  have key : (2 * (a * b) * d) ^ 2 ≤ (a * a * B + A * (b * b)) ^ 2 := by
    nlinarith [sq_nonneg (a * a * B - A * (b * b)), sq_nonneg (a * b), hd,
      mul_nonneg (mul_nonneg (sq_nonneg a) (sq_nonneg b)) (sub_nonneg.2 hd)]
  have hR : 0 ≤ a * a * B + A * (b * b) := by
    have h1 : 0 ≤ a * a * B := mul_nonneg (mul_self_nonneg a) hB
    have h2 : 0 ≤ A * (b * b) := mul_nonneg hA (mul_self_nonneg b)
    omega
  have h2 : 2 * (a * b) * d ≤ a * a * B + A * (b * b) := by
    nlinarith [key, hR, sq_nonneg (2 * (a * b) * d - (a * a * B + A * (b * b)))]
  nlinarith [hd, h2]

/-- Cauchy–Schwarz for the integer dot product: the squared dot product never
exceeds the product of the squared magnitudes. -/
theorem dotp_sq_le (a : List ℤ) : ∀ b : List ℤ, (dotp a b) ^ 2 ≤ magSq a * magSq b := by
  induction a with
  | nil =>
    intro b
    simp [dotp, magSq]
  | cons x xs ih =>
    intro b
    cases b with
    | nil => simp [dotp, magSq]
    | cons y ys =>
      rw [dotp_cons, magSq_cons, magSq_cons]
      exact cs_step x y (dotp xs ys) (magSq xs) (magSq ys)
        (magSq_nonneg xs) (magSq_nonneg ys) (ih ys)

theorem normSq_abs_le_one (a b : List ℤ) (ha : magSq a ≠ 0) (hb : magSq b ≠ 0) :
    |normSq a b| ≤ 1 := by
  have hA : (0 : ℚ) < (magSq a : ℚ) := by
    exact_mod_cast (magSq_nonneg a).lt_of_ne (Ne.symm ha)
  have hB : (0 : ℚ) < (magSq b : ℚ) := by
    exact_mod_cast (magSq_nonneg b).lt_of_ne (Ne.symm hb)
  have hprod : (0 : ℚ) < (magSq a : ℚ) * (magSq b : ℚ) := mul_pos hA hB
  rw [normSq, abs_div, abs_of_pos hprod, div_le_one hprod]
  have h1 : |((dotp a b * |dotp a b| : ℤ) : ℚ)| = (((dotp a b) ^ 2 : ℤ) : ℚ) := by
    rw [← Int.cast_abs]
    congr 1
    rw [abs_mul, abs_abs, abs_mul_abs_self]
    ring
  rw [h1]
  exact_mod_cast dotp_sq_le a b

theorem cosineDist_bounds (a b : List ℤ) (ha : magSq a ≠ 0) (hb : magSq b ≠ 0) :
    0 ≤ cosineDist a b ∧ cosineDist a b ≤ cosineSentinel := by
  have hn := abs_le.1 (normSq_abs_le_one a b ha hb)
  rw [cosineDist, if_neg (by tauto), cosineSentinel]
  constructor <;> linarith [hn.1, hn.2]

/-! ## Codec round trips -/

theorem bitsAux_zero : ∀ k : ℕ, bitsAux k 0 = List.replicate k false := by
  intro k
  induction k with
  | zero => rfl
  | succ k ih => simp [bitsAux, ih, List.replicate_succ]

theorem byteVal_bitsAux : ∀ (bs : List Bool) (k : ℕ), bs.length ≤ k →
    bitsAux k (byteVal bs) = bs ++ List.replicate (k - bs.length) false := by
  intro bs
  induction bs with
  | nil => intro k h; simp [byteVal, bitsAux_zero]
  | cons b t ih =>
    intro k h
    cases k with
    | zero => simp at h
    | succ k' =>
      rw [byteVal, bitsAux]
      have hc : (cond b 1 0 : ℕ) < 2 := by cases b <;> simp
      have hm : (cond b 1 0 + 2 * byteVal t) % 2 = cond b 1 0 := by omega
      have hdv : (cond b 1 0 + 2 * byteVal t) / 2 = byteVal t := by omega
      rw [hm, hdv, ih k' (by simpa using h)]
      have harg : k' + 1 - (b :: t).length = k' - t.length := by
        simp only [List.length_cons]
        omega
      rw [harg]
      cases b <;> rfl

theorem packBits_flat : ∀ bs : List Bool,
    ∃ n, (packBits bs).flatMap (bitsAux 8) = bs ++ List.replicate n false := by
  have key : ∀ (fuel : ℕ) (bs : List Bool), bs.length ≤ fuel →
      ∃ n, (packBits bs).flatMap (bitsAux 8) = bs ++ List.replicate n false := by
    intro fuel
    induction fuel with
    | zero =>
      intro bs h
      have hnil : bs = [] := List.eq_nil_of_length_eq_zero (by omega)
      subst hnil
      exact ⟨0, by simp [packBits]⟩
    | succ f ihf =>
      intro bs h
      cases bs with
      | nil => exact ⟨0, by simp [packBits]⟩
      | cons b t =>
        rw [packBits, List.flatMap_cons]
        obtain ⟨n, hn⟩ := ihf ((b :: t).drop 8)
          (by rw [List.length_drop]; simp only [List.length_cons] at h ⊢; omega)
        rw [hn]
        rw [byteVal_bitsAux ((b :: t).take 8) 8 (by rw [List.length_take]; omega)]
        by_cases hlen : (b :: t).length ≤ 8
        · have hdrop : (b :: t).drop 8 = [] := by
            rw [List.drop_eq_nil_iff]
            omega
          have htake : (b :: t).take 8 = b :: t := List.take_of_length_le hlen
          refine ⟨8 - (b :: t).length + n, ?_⟩
          rw [htake, hdrop, List.nil_append, List.append_assoc, ← List.replicate_add]
        · have htake8 : ((b :: t).take 8).length = 8 := by
            rw [List.length_take]
            simp only [List.length_cons] at hlen ⊢
            omega
          refine ⟨n, ?_⟩
          rw [htake8]
          simp only [Nat.sub_self, List.replicate_zero, List.append_nil]
          rw [← List.append_assoc, List.take_append_drop]
  exact fun bs => key bs.length bs le_rfl

/-- Binary round trip: unpacking the packed bytes of a bit vector of dimension
`d` returns the original bit vector. -/
theorem unpack_pack (d : ℕ) (bs : List Bool) (h : bs.length = d) :
    unpackBits d (packBits bs) = bs := by
  subst h
  unfold unpackBits
  obtain ⟨n, hn⟩ := packBits_flat bs
  rw [hn, List.take_left]

/-- Quantized-integer round trip: decoding the encoded vector is within one
quantization step (one integer grid unit) of every original component. -/
theorem quant_roundtrip (v : List ℚ) :
    List.Forall₂ (fun x y => |x - y| ≤ 1) v (decodeI8 (encodeI8 v)) := by
  induction v with
  | nil => exact List.Forall₂.nil
  | cons x t ih =>
    have hstep : decodeI8 (encodeI8 (x :: t)) = ((quantI8 x : ℤ) : ℚ) :: decodeI8 (encodeI8 t) := rfl
    rw [hstep]
    refine List.Forall₂.cons ?_ ih
    have h := abs_sub_round x
    have h2 : |x - ((quantI8 x : ℤ) : ℚ)| ≤ 1 / 2 := by
      unfold quantI8
      exact h
    linarith

/-! ## The claimed properties -/

theorem matchingSlots_none (st : Store) : matchingSlots st none = liveSlots st := by
  unfold matchingSlots
  exact List.filter_true _

theorem knnExec_ok (st : Store) (q : KnnQuery) (hdim : q.qvec.length = st.dim)
    (hcompat : q.metric = .hamming → st.enc = .bit) :
    ∃ out, knnExec st q = .ok out := by
  unfold knnExec
  rw [if_neg (by simp [hdim]), if_neg (fun hand => hand.2 (hcompat hand.1))]
  by_cases hk : q.k = 0
  · rw [if_pos hk]; exact ⟨_, rfl⟩
  · rw [if_neg hk]; exact ⟨_, rfl⟩

/-- C10: the exposed semantic version string `SQLITE_VEC_VERSION` is
consistent with the numeric version macros: it equals `"v"` followed by
major, `"."`, minor, `"."`, patch, i.e. `"v0.3.1"`, and the numeric triple is
`(0, 3, 1)`. -/
theorem c10_version_consistent :
    SQLITE_VEC_VERSION =
      "v" ++ toString SQLITE_VEC_VERSION_MAJOR ++ "." ++ toString SQLITE_VEC_VERSION_MINOR
        ++ "." ++ toString SQLITE_VEC_VERSION_PATCH ∧
    (SQLITE_VEC_VERSION_MAJOR, SQLITE_VEC_VERSION_MINOR, SQLITE_VEC_VERSION_PATCH)
      = (0, 3, 1) := by
  exact ⟨rfl, rfl⟩

/-- C1: for every collection and every KNN query without a partition
predicate whose query vector passes validation (dimension matches, metric
compatible with the encoding), the executor's returned sequence equals the
brute-force reference: the distance from the query vector to every live row,
sorted by ascending distance (ties by ascending rowid), truncated to the k
smallest.  The metric is universally quantified, so this covers all four
metrics (L2-squared, cosine, L1, Hamming). -/
theorem c1_bruteforce_equiv (st : Store) (q : KnnQuery)
    (hpred : q.pred = none) (hdim : q.qvec.length = st.dim)
    (hcompat : q.metric = .hamming → st.enc = .bit) :
    ∃ out, knnExec st q = .ok out ∧
      out.hits = (sortHits ((liveSlots st).map (rowHit q.metric q.qvec))).take q.k := by
  obtain ⟨out, hout⟩ := knnExec_ok st q hdim hcompat
  refine ⟨out, hout, ?_⟩
  rw [knnExec_hits hout, hpred, matchingSlots_none]

/-- C1 witness: the theorem applied to the concrete collection `exStore` and
the concrete L2 query `exQueryNoPred`. -/
theorem c1_witness :
    ∃ out, knnExec exStore exQueryNoPred = .ok out ∧
      out.hits = (sortHits ((liveSlots exStore).map
        (rowHit exQueryNoPred.metric exQueryNoPred.qvec))).take exQueryNoPred.k :=
  c1_bruteforce_equiv exStore exQueryNoPred rfl rfl (fun h => nomatch h)

/-- C2 counterexample: on `exStore` with k = 2 and predicate `pkey = 1`, the
executor returns the rows with rowids 2 and 3, but the no-predicate top-2
result restricted to predicate-satisfying rows keeps only rowid 2 — the claim
"predicate result = unfiltered top-k restricted to satisfying rows" is false
as soon as the truncation to k bites. -/
theorem c2_counterexample :
    hitsOf (knnExec exStore exQueryPred) ≠
      (hitsOf (knnExec exStore exQueryNoPred)).filter
        (fun h => decide (h.2 ∈ (matchingSlots exStore (some (.eqv 1))).map Slot.rowid)) := by
  decide

/-- C2 (amended): for every collection and KNN query with a partition
predicate, the returned sequence equals the brute-force distance-sorted
sequence of exactly the live rows satisfying the predicate, truncated to the
k smallest; every returned row satisfies the predicate, and chunk-level
pruning only ever skips chunks none of whose live rows satisfy the
predicate. -/
theorem c2_partition_filter (st : Store) (q : KnnQuery) (p : Pred) (hpred : q.pred = some p)
    (out : KnnOut) (hout : knnExec st q = .ok out) :
    out.hits = (sortHits (((liveSlots st).filter fun sl => predHolds p sl.pkey).map
        (rowHit q.metric q.qvec))).take q.k ∧
    (∀ h ∈ out.hits,
      h.2 ∈ ((liveSlots st).filter fun sl => predHolds p sl.pkey).map Slot.rowid) ∧
    (∀ ch ∈ st.chunks, candidateB (some p) ch = false →
      ∀ sl ∈ ch.slots, sl.live = true → predHolds p sl.pkey = false) := by
  have hmain : out.hits = (sortHits (((liveSlots st).filter fun sl => predHolds p sl.pkey).map
      (rowHit q.metric q.qvec))).take q.k := by
    rw [knnExec_hits hout, hpred]
    rfl
  refine ⟨hmain, ?_, ?_⟩
  · intro h hmem
    rw [hmain] at hmem
    have h3 := (sortHits_perm _).subset (List.take_subset _ _ hmem)
    obtain ⟨sl, hsl, hrw⟩ := List.mem_map.1 h3
    have : h.2 = sl.rowid := by rw [← hrw]; rfl
    rw [this]
    exact List.mem_map_of_mem _ hsl
  · intro ch hch hcm sl hsl hlive
    by_contra hcon
    have hp : predHolds p sl.pkey = true := by
      cases hpk : predHolds p sl.pkey
      · exact absurd hpk hcon
      · rfl
    have hpkmem : sl.pkey ∈ livePkeys ch := by
      unfold livePkeys
      exact List.mem_map_of_mem _ (List.mem_filter.2 ⟨hsl, hlive⟩)
    obtain ⟨lo, hi, hs, hlo, hhi⟩ := summary_bounds ch sl.pkey hpkmem
    have := canMatch_of_holds p sl.pkey lo hi hlo hhi hp
    rw [show candidateB (some p) ch = canMatch p (summary ch) from rfl, hs, this] at hcm
    cases hcm

/-- C2 witness: the amended theorem applied to `exStore` and the concrete
predicate query `exQueryPred`, whose executor output is the concrete sequence
`[(1, 2), (4, 3)]`. -/
theorem c2_witness :
    (⟨[(((1 : ℤ) : ℚ), 2), (((4 : ℤ) : ℚ), 3)], 1, 2⟩ : KnnOut).hits =
      (sortHits (((liveSlots exStore).filter fun sl => predHolds (.eqv 1) sl.pkey).map
        (rowHit exQueryPred.metric exQueryPred.qvec))).take exQueryPred.k :=
  (c2_partition_filter exStore exQueryPred (.eqv 1) rfl
    ⟨[(((1 : ℤ) : ℚ), 2), (((4 : ℤ) : ℚ), 3)], 1, 2⟩ (by rfl)).1

/-- C3: in every reachable collection state, whenever a KNN query succeeds,
the returned sequence is strictly ordered by (distance, rowid): two returned
rows at equal distance appear with the strictly lower rowid first — ascending
rowid is the only tie-break, and the output is a deterministic function of
the state and the query (the executor is a pure function). -/
theorem c3_tiebreak (dim : ℕ) (enc : Encoding) (cap : ℕ) (ops : List Op) (q : KnnQuery)
    (out : KnnOut)
    (hout : knnExec (applyOps ops (mkStore dim enc cap)) q = .ok out) :
    out.hits.Pairwise hitLt := by
  have hnd : (liveRowids (applyOps ops (mkStore dim enc cap))).Nodup :=
    invr_reachable dim enc cap ops
  rw [knnExec_hits hout]
  set M := (matchingSlots (applyOps ops (mkStore dim enc cap)) q.pred).map
    (rowHit q.metric q.qvec) with hM
  have hsub : (M.map Prod.snd).Sublist (liveRowids (applyOps ops (mkStore dim enc cap))) := by
    rw [hM, List.map_map]
    have hcomp : (Prod.snd ∘ rowHit q.metric q.qvec) = Slot.rowid := rfl
    rw [hcomp]
    unfold matchingSlots liveRowids
    exact (List.filter_sublist _).map _
  have hndM := hsub.nodup hnd
  have hnds : ((sortHits M).map Prod.snd).Nodup :=
    (((sortHits_perm M).map Prod.snd).symm).nodup hndM
  have hpair2 := List.pairwise_map.1 hnds
  have hsorted := sortHits_sorted M
  have hcomb : (sortHits M).Pairwise hitLt := by
    refine (hsorted.and hpair2).imp ?_
    intro a b hab
    rcases hab.1 with hlt | ⟨heq, hle⟩
    · exact Or.inl hlt
    · exact Or.inr ⟨heq, lt_of_le_of_ne hle hab.2⟩
  exact List.Pairwise.sublist (List.take_sublist q.k _) hcomb

/-- C3 witness: the theorem applied to a concrete reachable two-row store and
a concrete query whose output is `[(0, 1), (1, 2)]`. -/
theorem c3_witness :
    (⟨[(((0 : ℤ) : ℚ), 1), (((1 : ℤ) : ℚ), 2)], 1, 2⟩ : KnnOut).hits.Pairwise hitLt :=
  c3_tiebreak 1 .float32 2 [.insertOp 1 [0] 0, .insertOp 2 [1] 0] ⟨[0], 2, none, .l2sq⟩
    ⟨[(((0 : ℤ) : ℚ), 1), (((1 : ℤ) : ℚ), 2)], 1, 2⟩ (by rfl)

/-- C4: a KNN query with k = 0 on a validated query returns the empty
sequence with zero chunks visited and zero distances computed (no scan); and
whenever k is at least the number of live rows matching the predicate, the
returned sequence is exactly all those rows (a permutation of them) in
ascending distance order. -/
theorem c4_boundary :
    (∀ (st : Store) (q : KnnQuery), q.qvec.length = st.dim →
        (q.metric = .hamming → st.enc = .bit) → q.k = 0 →
        knnExec st q = .ok ⟨[], 0, 0⟩) ∧
    (∀ (st : Store) (q : KnnQuery) (out : KnnOut), knnExec st q = .ok out →
        (matchingSlots st q.pred).length ≤ q.k →
        out.hits.Perm ((matchingSlots st q.pred).map (rowHit q.metric q.qvec)) ∧
        out.hits.Sorted hitLe) := by
  constructor
  · intro st q hdim hcompat hk
    unfold knnExec
    rw [if_neg (by simp [hdim]), if_neg (fun hand => hand.2 (hcompat hand.1)), if_pos hk]
  · intro st q out hout hk
    have h := knnExec_hits hout
    have hlen : ((matchingSlots st q.pred).map (rowHit q.metric q.qvec)).length ≤ q.k := by
      simpa using hk
    have hlen2 : (sortHits ((matchingSlots st q.pred).map (rowHit q.metric q.qvec))).length
        ≤ q.k := by
      rw [(sortHits_perm _).length_eq]
      exact hlen
    rw [h, List.take_of_length_le hlen2]
    exact ⟨sortHits_perm _, sortHits_sorted _⟩

/-- C4 witness: k = 0 on `exStore` returns `⟨[], 0, 0⟩`, and k = 5 (above the
3 live rows) returns all three rows sorted. -/
theorem c4_witness :
    knnExec exStore ⟨[0], 0, none, .l2sq⟩ = .ok ⟨[], 0, 0⟩ ∧
    ((⟨[(((0 : ℤ) : ℚ), 1), (((1 : ℤ) : ℚ), 2), (((4 : ℤ) : ℚ), 3)], 1, 3⟩ : KnnOut).hits.Perm
      ((matchingSlots exStore none).map (rowHit .l2sq [0])) ∧
     (⟨[(((0 : ℤ) : ℚ), 1), (((1 : ℤ) : ℚ), 2), (((4 : ℤ) : ℚ), 3)], 1, 3⟩ : KnnOut).hits.Sorted
      hitLe) :=
  ⟨c4_boundary.1 exStore ⟨[0], 0, none, .l2sq⟩ rfl (fun h => nomatch h) rfl,
   c4_boundary.2 exStore ⟨[0], 5, none, .l2sq⟩
     ⟨[(((0 : ℤ) : ℚ), 1), (((1 : ℤ) : ℚ), 2), (((4 : ℤ) : ℚ), 3)], 1, 3⟩ (by rfl) (by decide)⟩

/-- C5: after a successful `delete(rowid)`, the rowid never appears in the
result of any KNN query executed in any later state reachable by mutations
that do not re-insert that rowid — even when k is at least the collection
size. -/
theorem c5_delete_invisible (dim : ℕ) (enc : Encoding) (cap : ℕ) (ops1 : List Op) (r : ℤ)
    (st1 : Store) (hdel : delete (applyOps ops1 (mkStore dim enc cap)) r = .ok st1)
    (ops2 : List Op) (hops2 : ∀ op ∈ ops2, reinserts r op = false)
    (q : KnnQuery) (out : KnnOut) (hout : knnExec (applyOps ops2 st1) q = .ok out) :
    r ∉ out.hits.map Prod.snd := by
  have h1 : r ∉ liveRowids st1 := by
    unfold delete at hdel
    by_cases hmem : r ∈ liveRowids (applyOps ops1 (mkStore dim enc cap))
    · rw [if_pos hmem] at hdel
      have hst := Except.ok.inj hdel
      rw [← hst]
      unfold liveRowids
      rw [liveSlots_kill]
      intro hcon
      obtain ⟨sl, hsl, hr⟩ := List.mem_map.1 hcon
      have hfl := (List.mem_filter.1 hsl).2
      simp [hr] at hfl
    · rw [if_neg hmem] at hdel; cases hdel
  have h2 : r ∉ liveRowids (applyOps ops2 st1) := notlive_applyOps ops2 st1 h1 hops2
  intro hcon
  obtain ⟨x, hx, hxr⟩ := List.mem_map.1 hcon
  exact h2 (hxr ▸ hits_rowid_live hout x hx)

/-- C5 witness: insert rowid 5, delete it, then query with k = 3; the result
is empty and in particular does not contain rowid 5. -/
theorem c5_witness : (5 : ℤ) ∉ ((⟨[], 1, 0⟩ : KnnOut).hits.map Prod.snd) :=
  c5_delete_invisible 1 .float32 2 [.insertOp 5 [0] 0] 5
    ⟨1, .float32, 2, [⟨[⟨false, 5, [0], 0⟩, deadSlot]⟩]⟩ (by rfl) [] (by simp)
    ⟨[0], 3, none, .l2sq⟩ ⟨[], 1, 0⟩ (by rfl)

/-- C6: `insert` fails with `DuplicateRowid` exactly when the rowid is
already present in the rowid index at the time of the call, and on that
failure the store state is completely unchanged. -/
theorem c6_duplicate_rowid (st : Store) (r : ℤ) (v : List ℤ) (pk : ℤ) :
    (insert st r v pk = .error .DuplicateRowid ↔ r ∈ (liveEntries st).map Prod.fst) ∧
    (r ∈ (liveEntries st).map Prod.fst → applyOp st (.insertOp r v pk) = st) := by
  rw [liveEntries_map_fst]
  constructor
  · constructor
    · intro h
      by_contra hmem
      unfold insert at h
      rw [if_neg hmem] at h
      cases h
    · intro hmem
      unfold insert
      rw [if_pos hmem]
  · intro hmem
    show (match insert st r v pk with | .ok st' => st' | .error _ => st) = st
    unfold insert
    rw [if_pos hmem]

/-- C6 witness: inserting the already-present rowid 1 into `exStore` fails
with `DuplicateRowid` and leaves the store unchanged. -/
theorem c6_witness :
    insert exStore 1 [5] 0 = .error .DuplicateRowid ∧
    applyOp exStore (.insertOp 1 [5] 0) = exStore :=
  ⟨(c6_duplicate_rowid exStore 1 [5] 0).1.2 (by decide),
   (c6_duplicate_rowid exStore 1 [5] 0).2 (by decide)⟩

/-- C7: in every state reachable by any sequence of allocate/insert/delete/
update/compact operations, the rowid index is a bijection between live rowids
and the (chunk, slot) positions of the live slots: rowids are pairwise
distinct, no two index entries share a (chunk, slot) position, and `(r, c, s)`
is an index entry exactly when chunk `c` holds at slot `s` a live record with
rowid `r`. -/
theorem c7_index_bijection (dim : ℕ) (enc : Encoding) (cap : ℕ) (ops : List Op) :
    ((liveEntries (applyOps ops (mkStore dim enc cap))).map Prod.fst).Nodup ∧
    ((liveEntries (applyOps ops (mkStore dim enc cap))).map (fun e => e.2)).Nodup ∧
    (∀ (r : ℤ) (c s : ℕ),
      (r, c, s) ∈ liveEntries (applyOps ops (mkStore dim enc cap)) ↔
        ∃ ch sl, (applyOps ops (mkStore dim enc cap)).chunks.get? c = some ch ∧
          ch.slots.get? s = some sl ∧ sl.live = true ∧ sl.rowid = r) := by
  refine ⟨?_, liveEntries_snd_nodup _, fun r c s => liveEntries_mem _ r c s⟩
  rw [liveEntries_map_fst]
  exact invr_reachable dim enc cap ops

/-- C8: for every vector passing write-time validation, decode ∘ encode is
the identity for the float32 codec, the identity for the packed-binary codec
at the declared dimension, and within one quantization step per component for
the 8-bit quantized integer codec. -/
theorem c8_roundtrip :
    (∀ v : List ℚ, decodeF32 (encodeF32 v) = v) ∧
    (∀ (d : ℕ) (bs : List Bool), bs.length = d → unpackBits d (packBits bs) = bs) ∧
    (∀ v : List ℚ, validI8 v →
      List.Forall₂ (fun x y => |x - y| ≤ 1) v (decodeI8 (encodeI8 v))) :=
  ⟨fun _ => rfl, unpack_pack, fun v _ => quant_roundtrip v⟩

/-- C8 witness: the binary codec round-trips the concrete bit vector
`[true, false, true]` at dimension 3, and the integer codec stays within one
step on the concrete valid vector `[2]`. -/
theorem c8_witness :
    unpackBits 3 (packBits [true, false, true]) = [true, false, true] ∧
    List.Forall₂ (fun x y => |x - y| ≤ 1) [(2 : ℚ)] (decodeI8 (encodeI8 [(2 : ℚ)])) :=
  ⟨c8_roundtrip.2.1 3 [true, false, true] rfl,
   c8_roundtrip.2.2 [(2 : ℚ)] (by decide)⟩

/-- C9: the cosine kernel returns the fixed sentinel maximum whenever either
vector has zero magnitude, and otherwise returns 1 minus the (model's)
normalized dot product; in the latter case the divisor is provably nonzero
(so the value is well defined — never an undefined/NaN-like result) and the
result lies between 0 and the sentinel, so the sentinel is a maximum. -/
theorem c9_cosine_zero_magnitude (a b : List ℤ) :
    ((magSq a = 0 ∨ magSq b = 0) → cosineDist a b = cosineSentinel) ∧
    (magSq a ≠ 0 → magSq b ≠ 0 →
      cosineDist a b = 1 - normSq a b ∧
      (magSq a : ℚ) * (magSq b : ℚ) ≠ 0 ∧
      0 ≤ cosineDist a b ∧ cosineDist a b ≤ cosineSentinel) := by
  constructor
  · intro h
    rw [cosineDist, if_pos h]
  · intro ha hb
    have hbounds := cosineDist_bounds a b ha hb
    have hA : (magSq a : ℚ) ≠ 0 := by exact_mod_cast ha
    have hB : (magSq b : ℚ) ≠ 0 := by exact_mod_cast hb
    exact ⟨by rw [cosineDist, if_neg (by tauto)], mul_ne_zero hA hB, hbounds.1, hbounds.2⟩

/-- C9 witness: the kernel at the zero vector `[0]` returns the sentinel, and
at the nonzero pair `([1], [1])` returns 1 minus the normalized dot
product. -/
theorem c9_witness :
    cosineDist [0] [1] = cosineSentinel ∧ cosineDist [1] [1] = 1 - normSq [1] [1] :=
  ⟨(c9_cosine_zero_magnitude [0] [1]).1 (Or.inl rfl),
   ((c9_cosine_zero_magnitude [1] [1]).2 (by decide) (by decide)).1⟩

end SqliteVec

